import Mathlib

/-! Verification of the fandango-learn constraint-mining core.

The repository ships its documentation, grammars, notebook transcripts and
build files; the `fdlearn` Python package itself (learner, candidates,
refinement loop) is not part of the source tree.  The definitions below are
therefore modelled from the specification of the constraint-mining and
refinement engine, and are checked against the concrete corpora, grammars and
printed outputs recorded in the repository (README transcript, notebook
`doc/02_refinement.ipynb`, `playground/calculator.fan`).
-/

namespace FdLearn

/-- Input text and non-terminal tags are modelled as plain character
sequences. -/
abbrev Str := List Char

/-- Helper turning a string literal into its character sequence. -/
def chars (s : String) : Str := s.toList

mutual

/-- Modelled from the spec: `DerivationNode` (§3) — a labeled tree node with a
non-terminal tag and an ordered sequence of children, or a terminal leaf
carrying source text.  The missing `fdlearn.data` derivation-tree class is not
in the source tree; the model follows the spec's data-model section.  The
child sequence is the isomorphic mutual type `DForest` so that all recursions
stay structural. -/
inductive DTree where
  | leaf (s : Str)
  | node (tag : Str) (children : DForest)

/-- Ordered sequence of derivation-tree children. -/
inductive DForest where
  | nil
  | cons (head : DTree) (tail : DForest)

end

mutual

def DTree.decEq : (a b : DTree) → Decidable (a = b)
  | .leaf s, .leaf t =>
    if h : s = t then .isTrue (by rw [h]) else .isFalse (fun he => by cases he; exact h rfl)
  | .leaf _, .node _ _ => .isFalse (fun he => by cases he)
  | .node _ _, .leaf _ => .isFalse (fun he => by cases he)
  | .node tg cs, .node tg2 cs2 =>
    if h : tg = tg2 then
      match DForest.decEq cs cs2 with
      | .isTrue hc => .isTrue (by rw [h, hc])
      | .isFalse hc => .isFalse (fun he => by injection he with h1 h2; exact hc h2)
    else .isFalse (fun he => by injection he with h1 h2; exact h h1)

def DForest.decEq : (a b : DForest) → Decidable (a = b)
  | .nil, .nil => .isTrue rfl
  | .nil, .cons _ _ => .isFalse (fun he => by cases he)
  | .cons _ _, .nil => .isFalse (fun he => by cases he)
  | .cons t ts, .cons u us =>
    match DTree.decEq t u with
    | .isTrue h1 =>
      match DForest.decEq ts us with
      | .isTrue h2 => .isTrue (by rw [h1, h2])
      | .isFalse h2 => .isFalse (fun he => by injection he with ha hb; exact h2 hb)
    | .isFalse h1 => .isFalse (fun he => by injection he with ha hb; exact h1 ha)

end

instance : DecidableEq DTree := DTree.decEq

instance : DecidableEq DForest := DForest.decEq

/-- Conversion of a child sequence to a list of subtrees. -/
def DForest.toList : DForest → List DTree
  | .nil => []
  | .cons t ts => t :: DForest.toList ts

/-- Building a child sequence from a list of subtrees. -/
def DForest.ofList : List DTree → DForest
  | [] => .nil
  | t :: ts => .cons t (DForest.ofList ts)

mutual

/-- The contiguous source text a derivation node covers: concatenation of all
terminal leaves in order (§3 invariant). -/
def DTree.text : DTree → Str
  | .leaf s => s
  | .node _ cs => DForest.textList cs

def DForest.textList : DForest → Str
  | .nil => []
  | .cons t ts => DTree.text t ++ DForest.textList ts

end

mutual

/-- Modelled from the spec: the Derivation Model contract (§4.1) — ordered
sequence of all occurrences of a non-terminal tag anywhere in the tree,
left-to-right pre-order. -/
def DTree.occ (tag : Str) : DTree → List DTree
  | .leaf _ => []
  | .node tg cs => (if tg = tag then [DTree.node tg cs] else []) ++ DForest.occList tag cs

def DForest.occList (tag : Str) : DForest → List DTree
  | .nil => []
  | .cons t ts => DTree.occ tag t ++ DForest.occList tag ts

end

/-- Oracle label of an input (§3, §6). -/
inductive OracleResult where
  | PASSING
  | FAILING
deriving DecidableEq

/-- Modelled from the spec: `LabeledInput` (§3) — a derivation tree paired
with its oracle label (the missing `fdlearn.data.FandangoInput`). -/
structure LabeledInput where
  tree : DTree
  label : OracleResult
deriving DecidableEq

/-- Numeric value of a decimal digit character, `none` otherwise. -/
def digitVal (c : Char) : Option Nat :=
  if '0' ≤ c ∧ c ≤ '9' then some (c.toNat - '0'.toNat) else none

/-- Accumulating decimal parse of a digit sequence. -/
def parseDigitsGo : Str → Nat → Option Nat
  | [], acc => some acc
  | c :: cs, acc =>
    match digitVal c with
    | some d => parseDigitsGo cs (acc * 10 + d)
    | none => none

/-- Decimal parse of a non-empty digit sequence. -/
def parseDigits : Str → Option Nat
  | [] => none
  | c :: cs => parseDigitsGo (c :: cs) 0

/-- Modelled from the spec: attempted numeric parse of an occurrence's text
(§4.1); `none` plays the role of the `NotNumeric` error. -/
def parseIntStr : Str → Option Int
  | '-' :: cs => (parseDigits cs).map (fun n => -(n : Int))
  | cs => (parseDigits cs).map (fun n => (n : Int))

/-- Whether `target` starts with the sequence `pat`. -/
def seqStartsWith : Str → Str → Bool
  | [], _ => true
  | _ :: _, [] => false
  | a :: as, b :: bs => a == b && seqStartsWith as bs

/-- Whether `hay` contains `needle` as a contiguous subsequence
(the Python `in` test on strings). -/
def seqContains (needle : Str) : Str → Bool
  | [] => seqStartsWith needle []
  | c :: cs => seqStartsWith needle (c :: cs) || seqContains needle cs

/-- Modelled from the spec: the fixed Pattern Catalog (§4.2) with bound
placeholders — numeric comparison (`int(<N>) <= <INT>`, `int(<N>) == <INT>`),
exact string equality (`str(<N>) == <STR>`), the two existential membership
forms (`exists <e> in <N>: str(<e>) == <STR>` and `'<STR>' in str(<e>)`), and
the cross non-terminal length relation (`int(<N1>) == len(str(<N2>))`). -/
inductive Atomic where
  | intLe (nt : Str) (k : Int)
  | intEq (nt : Str) (k : Int)
  | strEq (nt : Str) (s : Str)
  | existsStrEq (nt : Str) (s : Str)
  | existsSubstr (nt : Str) (s : Str)
  | lenRel (n1 n2 : Str)
deriving DecidableEq

mutual

/-- Modelled from the spec: constraint expressions — atomic candidates,
`ConjunctionConstraint` over a list of members, and the refinement-time
`NegationConstraint` wrapper (§3, notebook cells building
`NegationConstraint`/`ConjunctionConstraint`). -/
inductive Constraint where
  | atom (a : Atomic)
  | conj (cs : CList)
  | neg (c : Constraint)

/-- Ordered list of conjunction members. -/
inductive CList where
  | nil
  | cons (head : Constraint) (tail : CList)

end

mutual

def Constraint.decEq : (a b : Constraint) → Decidable (a = b)
  | .atom x, .atom y =>
    if h : x = y then .isTrue (by rw [h]) else .isFalse (fun he => by injection he with h1; exact h h1)
  | .atom _, .conj _ => .isFalse (fun he => by cases he)
  | .atom _, .neg _ => .isFalse (fun he => by cases he)
  | .conj _, .atom _ => .isFalse (fun he => by cases he)
  | .conj cs, .conj ds =>
    match CList.decEq cs ds with
    | .isTrue hc => .isTrue (by rw [hc])
    | .isFalse hc => .isFalse (fun he => by injection he with h1; exact hc h1)
  | .conj _, .neg _ => .isFalse (fun he => by cases he)
  | .neg _, .atom _ => .isFalse (fun he => by cases he)
  | .neg _, .conj _ => .isFalse (fun he => by cases he)
  | .neg c, .neg d =>
    match Constraint.decEq c d with
    | .isTrue hc => .isTrue (by rw [hc])
    | .isFalse hc => .isFalse (fun he => by injection he with h1; exact hc h1)

def CList.decEq : (a b : CList) → Decidable (a = b)
  | .nil, .nil => .isTrue rfl
  | .nil, .cons _ _ => .isFalse (fun he => by cases he)
  | .cons _ _, .nil => .isFalse (fun he => by cases he)
  | .cons c cs, .cons d ds =>
    match Constraint.decEq c d with
    | .isTrue h1 =>
      match CList.decEq cs ds with
      | .isTrue h2 => .isTrue (by rw [h1, h2])
      | .isFalse h2 => .isFalse (fun he => by injection he with ha hb; exact h2 hb)
    | .isFalse h1 => .isFalse (fun he => by injection he with ha hb; exact h1 ha)

end

instance : DecidableEq Constraint := Constraint.decEq

instance : DecidableEq CList := CList.decEq

/-- Members of a conjunction as a plain list. -/
def CList.toList : CList → List Constraint
  | .nil => []
  | .cons c cs => c :: CList.toList cs

/-- Building a conjunction member list from a plain list. -/
def CList.ofList : List Constraint → CList
  | [] => .nil
  | c :: cs => .cons c (CList.ofList cs)

/-- `ConjunctionConstraint` applied to a list of members. -/
def mkConj (cs : List Constraint) : Constraint := .conj (CList.ofList cs)

/-- Modelled from the spec: the Candidate Evaluator's boolean rule for one
bound template on one derivation tree (§4.3): occurrences of the bound tag
are located and the rule applied; a missing tag makes the constraint
vacuously false, and a numeric comparison on non-numeric text counts as
false (`NotNumeric` is local, never propagated). -/
def evalAtomic (a : Atomic) (t : DTree) : Bool :=
  match a with
  | .intLe nt k =>
    let os := DTree.occ nt t
    !os.isEmpty && os.all (fun o =>
      match parseIntStr o.text with
      | some v => decide (v ≤ k)
      | none => false)
  | .intEq nt k =>
    let os := DTree.occ nt t
    !os.isEmpty && os.all (fun o =>
      match parseIntStr o.text with
      | some v => v == k
      | none => false)
  | .strEq nt s =>
    let os := DTree.occ nt t
    !os.isEmpty && os.all (fun o => o.text == s)
  | .existsStrEq nt s => (DTree.occ nt t).any (fun o => o.text == s)
  | .existsSubstr nt s => (DTree.occ nt t).any (fun o => seqContains s o.text)
  | .lenRel n1 n2 =>
    let o1 := DTree.occ n1 t
    let o2 := DTree.occ n2 t
    !o1.isEmpty && (!o2.isEmpty && o1.all (fun a =>
      match parseIntStr a.text with
      | some v => o2.all (fun b => v == (b.text.length : Int))
      | none => false))

mutual

/-- Truth value of a constraint expression on one derivation tree: a
conjunction is the elementwise AND of its members, a negation inverts the
wrapped truth value (§3). -/
def Constraint.eval : Constraint → DTree → Bool
  | .atom a, t => evalAtomic a t
  | .conj cs, t => CList.evalAll cs t
  | .neg c, t => !(Constraint.eval c t)

def CList.evalAll : CList → DTree → Bool
  | .nil, _ => true
  | .cons c cs, t => Constraint.eval c t && CList.evalAll cs t

end

/-- Number of atomic literals in a constraint expression. -/
def Atomic.tags : Atomic → List Str
  | .intLe nt _ => [nt]
  | .intEq nt _ => [nt]
  | .strEq nt _ => [nt]
  | .existsStrEq nt _ => [nt]
  | .existsSubstr nt _ => [nt]
  | .lenRel n1 n2 => [n1, n2]

mutual

/-- Non-terminal tags referenced by a constraint expression. -/
def Constraint.tags : Constraint → List Str
  | .atom a => a.tags
  | .conj cs => CList.tagsAll cs
  | .neg c => Constraint.tags c

def CList.tagsAll : CList → List Str
  | .nil => []
  | .cons c cs => Constraint.tags c ++ CList.tagsAll cs

end

mutual

/-- Literal count of a constraint expression (used by the Occam's-razor
tie-break of the ranking, §4.4). -/
def Constraint.litCount : Constraint → Nat
  | .atom _ => 1
  | .conj cs => CList.litCountAll cs
  | .neg c => Constraint.litCount c

def CList.litCountAll : CList → Nat
  | .nil => 0
  | .cons c cs => Constraint.litCount c + CList.litCountAll cs

end

/-- Whether a labeled input satisfies a constraint. -/
def Constraint.sat (c : Constraint) (i : LabeledInput) : Bool := c.eval i.tree

/-- Number of corpus inputs satisfying a boolean truth table. -/
def supportP (p : LabeledInput → Bool) (corpus : List LabeledInput) : Nat :=
  List.countP p corpus

/-- Number of failing corpus inputs satisfying a boolean truth table. -/
def truePosP (p : LabeledInput → Bool) (corpus : List LabeledInput) : Nat :=
  List.countP (fun i => (i.label == OracleResult.FAILING) && p i) corpus

/-- Number of failing inputs in a corpus. -/
def failingCount (corpus : List LabeledInput) : Nat :=
  List.countP (fun i => i.label == OracleResult.FAILING) corpus

/-- Modelled from the spec: `precision = |failing ∩ true| / |true|`, treated
as 0 when no input satisfies the constraint (§3); rational division by zero
is zero. -/
def precisionP (p : LabeledInput → Bool) (corpus : List LabeledInput) : Rat :=
  (truePosP p corpus : Rat) / (supportP p corpus : Rat)

/-- Modelled from the spec: `recall = |failing ∩ true| / |failing|` (§3). -/
def recallP (p : LabeledInput → Bool) (corpus : List LabeledInput) : Rat :=
  (truePosP p corpus : Rat) / (failingCount corpus : Rat)

/-- Support of a candidate on a corpus. -/
def supportC (c : Constraint) (corpus : List LabeledInput) : Nat :=
  supportP c.sat corpus

/-- Failing inputs satisfying a candidate. -/
def truePosC (c : Constraint) (corpus : List LabeledInput) : Nat :=
  truePosP c.sat corpus

/-- Precision of a candidate on a corpus. -/
def precisionC (c : Constraint) (corpus : List LabeledInput) : Rat :=
  precisionP c.sat corpus

/-- Recall of a candidate on a corpus. -/
def recallC (c : Constraint) (corpus : List LabeledInput) : Rat :=
  recallP c.sat corpus

/-- Modelled from the spec: instantiation value pool (§4.2) — the distinct
literal values observed at occurrences of a non-terminal across the failing
inputs only. -/
def valuesAt (corpus : List LabeledInput) (nt : Str) : List Str :=
  (((corpus.filter (fun i => i.label == OracleResult.FAILING)).map
    (fun i => (DTree.occ nt i.tree).map DTree.text)).flatten).dedup

/-- Modelled from the spec: the Candidate Instantiator (§4.2) — for each
relevant non-terminal, bind the NON_TERMINAL slot to it and the
STRING/INTEGER slots to every distinct value observed at its occurrences in
the failing inputs; the length-relation template is instantiated over pairs
of distinct relevant non-terminals. -/
def instantiate (corpus : List LabeledInput) (nts : List Str) : List Constraint :=
  ((nts.map (fun nt =>
    let vs := valuesAt corpus nt
    let is := vs.filterMap parseIntStr
    (is.map (fun k => Constraint.atom (.intLe nt k))) ++
    (is.map (fun k => Constraint.atom (.intEq nt k))) ++
    (vs.map (fun s => Constraint.atom (.strEq nt s))) ++
    (vs.map (fun s => Constraint.atom (.existsStrEq nt s))) ++
    (vs.map (fun s => Constraint.atom (.existsSubstr nt s))))).flatten) ++
  ((nts.map (fun n1 =>
    nts.filterMap (fun n2 =>
      if n1 = n2 then none else some (Constraint.atom (.lenRel n1 n2))))).flatten)

/-- Modelled from the spec: the default precision threshold (§4.3) — the
unconstrained failure rate of the corpus. -/
def baseline (corpus : List LabeledInput) : Rat :=
  (failingCount corpus : Rat) / (corpus.length : Rat)

/-- Executable form of `precisionC` built with `mkRat` (proved equal to the
division form below). -/
def precisionB (c : Constraint) (corpus : List LabeledInput) : Rat :=
  mkRat (truePosC c corpus) (supportC c corpus)

/-- Executable form of `recallC` built with `mkRat`. -/
def recallB (c : Constraint) (corpus : List LabeledInput) : Rat :=
  mkRat (truePosC c corpus) (failingCount corpus)

/-- Executable form of `baseline` built with `mkRat`. -/
def baselineB (corpus : List LabeledInput) : Rat :=
  mkRat (failingCount corpus) corpus.length

/-- Executable form of the precision·recall ranking product built with
`mkRat`. -/
def prodB (c : Constraint) (corpus : List LabeledInput) : Rat :=
  mkRat (truePosC c corpus * truePosC c corpus)
    (supportC c corpus * failingCount corpus)

/-- Modelled from the spec: the Candidate Evaluator's filtering policy
(§4.3) — a candidate is retained only if its recall is 1.0 and its precision
exceeds the baseline failure rate. -/
def retain (corpus : List LabeledInput) (c : Constraint) : Bool :=
  decide (recallB c corpus = 1) && decide (baselineB corpus < precisionB c corpus)

/-- All unordered pairs of a list, kept in list order. -/
def pairsOf : List Constraint → List (Constraint × Constraint)
  | [] => []
  | c :: cs => cs.map (fun d => (c, d)) ++ pairsOf cs

/-- Whether two candidates reference no common non-terminal tag — the
non-duplication invariant of conjunctions (§3). -/
def disjointTags (c d : Constraint) : Bool :=
  c.tags.all (fun t => !(d.tags.contains t))

/-- Modelled from the spec: the Conjunction Search's pairwise cross step
(§4.4) — all pairwise conjunctions of full-recall atomic candidates subject
to the non-duplication invariant. -/
def conjunctionsOf (l : List Constraint) : List Constraint :=
  (pairsOf l).filterMap (fun p =>
    if disjointTags p.1 p.2 then some (mkConj [p.1, p.2]) else none)

/-- Whether a candidate is a perfect separator (precision and recall both
1.0, §4.4). -/
def perfectB (c : Constraint) (corpus : List LabeledInput) : Bool :=
  decide (precisionB c corpus = 1 ∧ recallB c corpus = 1)

/-- Modelled from the spec: the ranking key (§4.4) — perfect separators come
first ordered by ascending literal count, then candidates by descending
precision·recall product, then by descending support; encoded so that the
lexicographic order on the key realises exactly that policy. -/
def rankKey (corpus : List LabeledInput) (c : Constraint) : Rat × Rat × Rat × Rat :=
  (if perfectB c corpus then 0 else 1,
   if perfectB c corpus then (c.litCount : Rat) else 0,
   -(precisionC c corpus * recallC c corpus),
   -((supportC c corpus : Rat)))

/-- Executable form of the ranking key, with the precision·recall product
built with `mkRat`. -/
def rankKeyB (corpus : List LabeledInput) (c : Constraint) : Rat × Rat × Rat × Rat :=
  (if perfectB c corpus then 0 else 1,
   if perfectB c corpus then (c.litCount : Rat) else 0,
   -(prodB c corpus),
   -((supportC c corpus : Rat)))

/-- One lexicographic step: strictly smaller first component, or equal first
components and related remainders. -/
def LexR {γ : Type} (R : γ → γ → Prop) (a b : Rat × γ) : Prop :=
  a.1 < b.1 ∨ (a.1 = b.1 ∧ R a.2 b.2)

instance {γ : Type} (R : γ → γ → Prop) [DecidableRel R] : DecidableRel (LexR R) :=
  fun a b => by
    unfold LexR
    exact inferInstance

/-- Lexicographic order on ranking keys. -/
def KeyLE : (Rat × Rat × Rat × Rat) → (Rat × Rat × Rat × Rat) → Prop :=
  LexR (LexR (LexR (fun x y : Rat => x ≤ y)))

instance : DecidableRel KeyLE := fun a b => by
  unfold KeyLE
  exact inferInstance

/-- Ranking order between two candidates relative to a corpus. -/
def mineLE (corpus : List LabeledInput) (c1 c2 : Constraint) : Prop :=
  KeyLE (rankKeyB corpus c1) (rankKeyB corpus c2)

instance (corpus : List LabeledInput) : DecidableRel (mineLE corpus) := fun a b => by
  unfold mineLE
  exact inferInstance

/-- Modelled from the spec: the pool of evaluated candidates of one mining
round — full-recall atomic candidates together with their pairwise
conjunctions, all filtered by the retention policy (§4.3–§4.4). -/
def minePool (corpus : List LabeledInput) (nts : List Str) : List Constraint :=
  let atoms := instantiate corpus nts
  let fullRecall := atoms.filter (fun c => decide (recallB c corpus = 1))
  (fullRecall ++ conjunctionsOf fullRecall).filter (retain corpus)

/-- Modelled from the spec: `mine` / `learn_constraints` (§6) — the ranked
list of retained candidates, sorted by the ranking policy of §4.4. -/
def mine (corpus : List LabeledInput) (nts : List Str) : List Constraint :=
  List.insertionSort (mineLE corpus) (minePool corpus nts)

/-- Modelled from the spec: `get_best_candidates` — every candidate tied at
the best rank of the ranked list (§4.4). -/
def bestCandidates (corpus : List LabeledInput) (nts : List Str) : List Constraint :=
  match mine corpus nts with
  | [] => []
  | c :: rest =>
    (c :: rest).filter (fun d => decide (rankKeyB corpus d = rankKeyB corpus c))

/-- Atomic literals of a candidate: the members of a conjunction, or the
candidate itself. -/
def literalsOf : Constraint → List Constraint
  | .conj cs => cs.toList
  | .atom a => [.atom a]
  | .neg c => [.neg c]

/-- Modelled from the spec: the CHALLENGE step of the refinement loop
(§4.5) — the constraint handed to the external generator: the best
candidate's first atomic literal wrapped in a negation, conjoined with the
candidate's remaining literals (notebook: `ConjunctionConstraint
([NegationConstraint(constraints[0]), constraints[1]])`). -/
def challengeConstraint (c : Constraint) : Option Constraint :=
  match literalsOf c with
  | [] => none
  | l :: rest => some (mkConj (Constraint.neg l :: rest))

/-- Modelled from the spec: corpus construction of the refinement entry
point (`FandangoRefinement`) — the caller supplies raw input texts and an
oracle; each text is parsed and labeled by invoking the oracle on it
(notebook constructor call; §3 lifecycle, §4.5 COLLECT, §6).  The signature
carries no caller-supplied labels. -/
def initialCorpus (parse : Str → Option DTree) (oracle : Str → OracleResult)
    (texts : List Str) : List LabeledInput :=
  texts.filterMap (fun s => (parse s).map (fun t => ⟨t, oracle s⟩))

/-! The calculator grammar corpora.

Derivation trees over `playground/calculator.fan`:
`<start> ::= <arithexp>; <arithexp> ::= <function>"("<number>")";
<function> ::= "sqrt" | "cos" | "sin" | "tan";
<number> ::= <maybeminus><onenine><maybedigits> | "0"; <maybeminus> ::= "-" | "";
<onenine> ::= "1" | ... | "9"; <maybedigits> ::= <digit>*; <digit> ::= "0" | <onenine>;`. -/

/-- A `<digit>` subtree: `"0"` is a direct terminal, other digits expand
through `<onenine>`. -/
def mkDigit (c : Char) : DTree :=
  .node (chars "<digit>")
    (if c = '0' then .cons (.leaf ['0']) .nil
     else .cons (.node (chars "<onenine>") (.cons (.leaf [c]) .nil)) .nil)

/-- A `<number>` subtree of the first alternative
`<maybeminus><onenine><maybedigits>`. -/
def mkNumber (minus : Bool) (first : Char) (rest : List Char) : DTree :=
  .node (chars "<number>")
    (.cons (.node (chars "<maybeminus>") (.cons (.leaf (if minus then ['-'] else [])) .nil))
      (.cons (.node (chars "<onenine>") (.cons (.leaf [first]) .nil))
        (.cons (.node (chars "<maybedigits>") (DForest.ofList (rest.map mkDigit))) .nil)))

/-- The `<number> ::= "0"` alternative. -/
def mkZeroNumber : DTree :=
  .node (chars "<number>") (.cons (.leaf ['0']) .nil)

/-- A full calculator derivation tree `<function>"("<number>")"`. -/
def mkCalc (fn : String) (num : DTree) : DTree :=
  .node (chars "<start>")
    (.cons (.node (chars "<arithexp>")
      (.cons (.node (chars "<function>") (.cons (.leaf (chars fn)) .nil))
        (.cons (.leaf ['(']) (.cons num (.cons (.leaf [')']) .nil))))) .nil)

/-- The notebook's six-input corpus (`doc/02_refinement.ipynb`):
sqrt(-900) and sqrt(-10) failing; sqrt(0), sin(-900), sqrt(2), cos(10)
passing. -/
def corpus6 : List LabeledInput :=
  [⟨mkCalc "sqrt" (mkNumber true '9' ['0', '0']), .FAILING⟩,
   ⟨mkCalc "sqrt" (mkNumber true '1' ['0']), .FAILING⟩,
   ⟨mkCalc "sqrt" mkZeroNumber, .PASSING⟩,
   ⟨mkCalc "sin" (mkNumber true '9' ['0', '0']), .PASSING⟩,
   ⟨mkCalc "sqrt" (mkNumber false '2' []), .PASSING⟩,
   ⟨mkCalc "cos" (mkNumber false '1' ['0']), .PASSING⟩]

/-- The README transcript's five-input corpus: sqrt(-900) and sqrt(-10)
failing; sqrt(2), cos(-10), sin(60) passing. -/
def corpus5 : List LabeledInput :=
  [⟨mkCalc "sqrt" (mkNumber true '9' ['0', '0']), .FAILING⟩,
   ⟨mkCalc "sqrt" (mkNumber true '1' ['0']), .FAILING⟩,
   ⟨mkCalc "sqrt" (mkNumber false '2' []), .PASSING⟩,
   ⟨mkCalc "cos" (mkNumber true '1' ['0']), .PASSING⟩,
   ⟨mkCalc "sin" (mkNumber false '6' ['0']), .PASSING⟩]

/-- The relevant non-terminals supplied to the learner in the notebook and
README. -/
def relevantNts : List Str :=
  [chars "<number>", chars "<maybeminus>", chars "<function>"]

/-- The reference conjunction `int(<number>) <= -10 and
str(<function>) == 'sqrt'` printed by the notebook as the top candidate. -/
def refConstraint : Constraint :=
  mkConj [.atom (.intLe (chars "<number>") (-10)),
          .atom (.strEq (chars "<function>") (chars "sqrt"))]

/-- A syntactically different but semantically equivalent variant of
`refConstraint` using the existential-membership template, mirroring the
equivalent variants printed by the notebook's `get_best_candidates`. -/
def refConstraint2 : Constraint :=
  mkConj [.atom (.intLe (chars "<number>") (-10)),
          .atom (.existsStrEq (chars "<function>") (chars "sqrt"))]

/-- A two-node derivation tree used to exercise evaluation edge cases. -/
def wTree : DTree :=
  .node (chars "<q>") (.cons (.leaf (chars "ab")) .nil)

/-! Order lemmas for the ranking relation. -/

theorem lexR_refl {γ : Type} (R : γ → γ → Prop) (hR : ∀ x, R x x) :
    ∀ a, LexR R a a := fun a => Or.inr ⟨rfl, hR a.2⟩

theorem lexR_total {γ : Type} (R : γ → γ → Prop) (hR : ∀ x y, R x y ∨ R y x) :
    ∀ a b, LexR R a b ∨ LexR R b a := by
  intro a b
  rcases lt_trichotomy a.1 b.1 with h | h | h
  · exact Or.inl (Or.inl h)
  · rcases hR a.2 b.2 with h2 | h2
    · exact Or.inl (Or.inr ⟨h, h2⟩)
    · exact Or.inr (Or.inr ⟨h.symm, h2⟩)
  · exact Or.inr (Or.inl h)

theorem lexR_trans {γ : Type} (R : γ → γ → Prop)
    (hR : ∀ x y z, R x y → R y z → R x z) :
    ∀ a b c, LexR R a b → LexR R b c → LexR R a c := by
  intro a b c h1 h2
  rcases h1 with h1 | ⟨e1, h1⟩ <;> rcases h2 with h2 | ⟨e2, h2⟩
  · exact Or.inl (h1.trans h2)
  · exact Or.inl (e2 ▸ h1)
  · exact Or.inl (by rw [e1]; exact h2)
  · exact Or.inr ⟨e1.trans e2, hR _ _ _ h1 h2⟩

theorem lexR_antisymm {γ : Type} (R : γ → γ → Prop)
    (hR : ∀ x y, R x y → R y x → x = y) :
    ∀ a b, LexR R a b → LexR R b a → a = b := by
  intro a b h1 h2
  rcases h1 with h1 | ⟨e1, h1⟩ <;> rcases h2 with h2 | ⟨e2, h2⟩
  · exact absurd h2 (lt_asymm h1)
  · exact absurd h1 (e2 ▸ lt_irrefl _)
  · exact absurd h2 (e1 ▸ lt_irrefl _)
  · exact Prod.ext e1 (hR _ _ h1 h2)

theorem keyLE_refl (a : Rat × Rat × Rat × Rat) : KeyLE a a :=
  lexR_refl _ (fun x => lexR_refl _ (fun y => lexR_refl _ (fun z => le_refl z) y) x) a

theorem keyLE_total (a b : Rat × Rat × Rat × Rat) : KeyLE a b ∨ KeyLE b a :=
  lexR_total _ (fun x y => lexR_total _ (fun u v => lexR_total _ le_total u v) x y) a b

theorem keyLE_trans (a b c : Rat × Rat × Rat × Rat)
    (h1 : KeyLE a b) (h2 : KeyLE b c) : KeyLE a c :=
  lexR_trans _
    (fun x y z => lexR_trans _
      (fun u v w => lexR_trans (fun p q : Rat => p ≤ q)
        (fun _ _ _ hp hq => le_trans hp hq) u v w) x y z)
    a b c h1 h2

theorem keyLE_antisymm (a b : Rat × Rat × Rat × Rat)
    (h1 : KeyLE a b) (h2 : KeyLE b a) : a = b :=
  lexR_antisymm _
    (fun x y => lexR_antisymm _
      (fun u v => lexR_antisymm _ (fun _ _ hp hq => le_antisymm hp hq) u v) x y)
    a b h1 h2

/-! Bridges between the executable `mkRat` metrics and the division
forms -/

theorem precisionB_eq (c : Constraint) (corpus : List LabeledInput) :
    precisionB c corpus = precisionC c corpus := by
  unfold precisionB precisionC precisionP truePosC supportC
  rw [Rat.mkRat_eq_div]
  simp only [Int.cast_natCast]

theorem recallB_eq (c : Constraint) (corpus : List LabeledInput) :
    recallB c corpus = recallC c corpus := by
  unfold recallB recallC recallP truePosC
  rw [Rat.mkRat_eq_div]
  simp only [Int.cast_natCast]

theorem baselineB_eq (corpus : List LabeledInput) :
    baselineB corpus = baseline corpus := by
  unfold baselineB baseline
  rw [Rat.mkRat_eq_div]
  simp only [Int.cast_natCast]

theorem prodB_eq (c : Constraint) (corpus : List LabeledInput) :
    prodB c corpus = precisionC c corpus * recallC c corpus := by
  unfold prodB precisionC recallC precisionP recallP truePosC supportC
  rw [Rat.mkRat_eq_div, div_mul_div_comm]
  push_cast
  ring

theorem rankKeyB_eq (corpus : List LabeledInput) (c : Constraint) :
    rankKeyB corpus c = rankKey corpus c := by
  unfold rankKeyB rankKey
  rw [prodB_eq]

theorem perfectB_iff (c : Constraint) (corpus : List LabeledInput) :
    perfectB c corpus = true ↔
      (precisionC c corpus = 1 ∧ recallC c corpus = 1) := by
  unfold perfectB
  rw [decide_eq_true_iff, precisionB_eq, recallB_eq]

theorem retain_iff (corpus : List LabeledInput) (c : Constraint) :
    retain corpus c = true ↔
      (recallC c corpus = 1 ∧ baseline corpus < precisionC c corpus) := by
  unfold retain
  rw [Bool.and_eq_true, decide_eq_true_iff, decide_eq_true_iff,
    recallB_eq, precisionB_eq, baselineB_eq]

/-! Counting lemmas. -/

theorem truePos_le_failing (c : Constraint) (corpus : List LabeledInput) :
    truePosC c corpus ≤ failingCount corpus := by
  unfold truePosC truePosP failingCount
  refine List.countP_mono_left (fun i _ h => ?_)
  simp only [Bool.and_eq_true] at h
  exact h.1

theorem recall_one_iff (c : Constraint) (corpus : List LabeledInput)
    (h : 0 < failingCount corpus) :
    recallC c corpus = 1 ↔ truePosC c corpus = failingCount corpus := by
  unfold recallC recallP truePosC
  rw [div_eq_one_iff_eq (by exact_mod_cast h.ne')]
  exact Nat.cast_inj

theorem countP_and_full {α : Type} (p q : α → Bool) :
    ∀ l : List α, List.countP (fun x => p x && q x) l = List.countP p l →
      ∀ x ∈ l, p x = true → q x = true := by
  intro l
  induction l with
  | nil =>
    intro _ x hx
    cases hx
  | cons a l ih =>
    intro h x hx hpx
    have hmono : List.countP (fun x => p x && q x) l ≤ List.countP p l := by
      refine List.countP_mono_left (fun y _ hy => ?_)
      simp only [Bool.and_eq_true] at hy
      exact hy.1
    rw [List.countP_cons, List.countP_cons] at h
    rcases List.mem_cons.mp hx with rfl | hx'
    · by_cases hq : q x = true
      · exact hq
      · exfalso
        have hqf : q x = false := Bool.eq_false_iff.mpr hq
        simp only [hpx, hqf, Bool.and_false, Bool.false_eq_true, if_false,
          if_true] at h
        omega
    · have htail : List.countP (fun x => p x && q x) l = List.countP p l := by
        have hhead : (if (p a && q a) = true then 1 else 0) ≤
            (if p a = true then 1 else 0) := by
          by_cases hpa : p a = true <;> by_cases hqa : q a = true <;>
            simp [hpa, hqa]
        omega
      exact ih htail x hx' hpx

theorem full_recall_pointwise (c : Constraint) (corpus : List LabeledInput)
    (h : truePosC c corpus = failingCount corpus) :
    ∀ i ∈ corpus, i.label = OracleResult.FAILING → c.eval i.tree = true := by
  intro i hi hlab
  unfold truePosC truePosP failingCount at h
  exact countP_and_full (fun j => j.label == OracleResult.FAILING)
    (fun j => c.sat j) corpus h i hi
    (by change (i.label == OracleResult.FAILING) = true; rw [hlab]; rfl)

/-! Membership in the mining output. -/

theorem mem_mine_retain (corpus : List LabeledInput) (nts : List Str)
    (c : Constraint) (h : c ∈ mine corpus nts) : retain corpus c = true := by
  unfold mine at h
  rw [List.mem_insertionSort] at h
  unfold minePool at h
  exact (List.mem_filter.mp h).2

theorem best_subset_mine (corpus : List LabeledInput) (nts : List Str)
    (c : Constraint) (h : c ∈ bestCandidates corpus nts) :
    c ∈ mine corpus nts := by
  unfold bestCandidates at h
  cases hm : mine corpus nts with
  | nil =>
    rw [hm] at h
    exact absurd h (List.not_mem_nil c)
  | cons a rest =>
    rw [hm] at h
    exact List.mem_of_mem_filter h

theorem precisionP_congr (p q : LabeledInput → Bool) (corpus : List LabeledInput)
    (h : ∀ i ∈ corpus, p i = q i) : precisionP p corpus = precisionP q corpus := by
  unfold precisionP truePosP supportP
  have h1 : List.countP (fun i => (i.label == OracleResult.FAILING) && p i) corpus
      = List.countP (fun i => (i.label == OracleResult.FAILING) && q i) corpus :=
    List.countP_congr (fun i hi => by rw [h i hi])
  have h2 : List.countP p corpus = List.countP q corpus :=
    List.countP_congr (fun i hi => by rw [h i hi])
  rw [h1, h2]

theorem recallP_congr (p q : LabeledInput → Bool) (corpus : List LabeledInput)
    (h : ∀ i ∈ corpus, p i = q i) : recallP p corpus = recallP q corpus := by
  unfold recallP truePosP
  have h1 : List.countP (fun i => (i.label == OracleResult.FAILING) && p i) corpus
      = List.countP (fun i => (i.label == OracleResult.FAILING) && q i) corpus :=
    List.countP_congr (fun i hi => by rw [h i hi])
  rw [h1]

/-! The claims. -/

/-- Claim C1: for every corpus containing at least one failing input, every
candidate (atomic or conjunction) returned by the learner's mine operation
(`learn_constraints` / `get_best_candidates`) has recall 1.0 on that exact
corpus — every failing input in the corpus satisfies the reported
constraint. -/
theorem c1_mine_full_recall (corpus : List LabeledInput) (nts : List Str)
    (c : Constraint) (hfail : 0 < failingCount corpus)
    (hc : c ∈ mine corpus nts ∨ c ∈ bestCandidates corpus nts) :
    recallC c corpus = 1 ∧
      ∀ i ∈ corpus, i.label = OracleResult.FAILING → c.eval i.tree = true := by
  have hm : c ∈ mine corpus nts := by
    rcases hc with h | h
    · exact h
    · exact best_subset_mine corpus nts c h
  have hret := mem_mine_retain corpus nts c hm
  have hrec : recallC c corpus = 1 := ((retain_iff corpus c).mp hret).1
  exact ⟨hrec,
    full_recall_pointwise c corpus ((recall_one_iff c corpus hfail).mp hrec)⟩

set_option maxRecDepth 100000 in
/-- Witness for C1 at the notebook's six-input corpus and its printed top
candidate. -/
theorem c1_witness :
    recallC refConstraint corpus6 = 1 ∧
      ∀ i ∈ corpus6, i.label = OracleResult.FAILING →
        refConstraint.eval i.tree = true :=
  c1_mine_full_recall corpus6 relevantNts refConstraint (by decide)
    (Or.inl (by decide))

/-- Claim C2 counterexample: the spec's precision formula
`|failing ∩ true| / |true|` applied to the README's five-input corpus gives
2/3 for the printed candidate `int(<number>) <= -10`, and 2/3 is not the
printed value 0.8 — so the formula does not reproduce the printed precision
values. -/
theorem c2_counterexample :
    precisionC (.atom (.intLe (chars "<number>") (-10))) corpus5 = 2/3 ∧
      (2 : Rat)/3 ≠ 4/5 := by
  constructor
  · have e : precisionB (.atom (.intLe (chars "<number>") (-10))) corpus5 =
        mkRat 2 3 := by decide
    rw [← precisionB_eq, e, Rat.mkRat_eq_div]
    norm_num
  · norm_num

/-- Claim C2 (amended): for every evaluated candidate and corpus the
reported precision is `|failing ∩ true| / |all true|` and it is 0 when no
input satisfies the candidate; on the README's five-input corpus this
formula yields 2/3 for each of the three printed atomic constraints (not
the printed 0.8, which instead matches the accuracy `(tp + tn)/n`) and 1.0
for the printed conjunction, and reproduces the printed recall 1.0. -/
theorem c2_precision_formula (c : Constraint) (corpus : List LabeledInput)
    (h : supportC c corpus = 0) :
    precisionC c corpus = 0 ∧
    (∀ (d : Constraint) (cs : List LabeledInput),
      precisionC d cs =
        ((cs.filter (fun i => (i.label == OracleResult.FAILING) && d.sat i)).length : Rat) /
          ((cs.filter d.sat).length : Rat)) ∧
    precisionC (.atom (.intLe (chars "<number>") (-10))) corpus5 = 2/3 ∧
    precisionC (.atom (.strEq (chars "<maybeminus>") (chars "-"))) corpus5 = 2/3 ∧
    precisionC (.atom (.strEq (chars "<function>") (chars "sqrt"))) corpus5 = 2/3 ∧
    precisionC (mkConj [.atom (.strEq (chars "<function>") (chars "sqrt")),
      .atom (.strEq (chars "<maybeminus>") (chars "-"))]) corpus5 = 1 ∧
    recallC (.atom (.intLe (chars "<number>") (-10))) corpus5 = 1 := by
  refine ⟨?_, ?_, ?_, ?_, ?_, ?_, ?_⟩
  · unfold supportC at h
    unfold precisionC precisionP
    rw [h]
    norm_num
  · intro d cs
    unfold precisionC precisionP truePosP supportP
    rw [List.countP_eq_length_filter, List.countP_eq_length_filter]
  · have e : precisionB (.atom (.intLe (chars "<number>") (-10))) corpus5 =
        mkRat 2 3 := by decide
    rw [← precisionB_eq, e, Rat.mkRat_eq_div]
    norm_num
  · have e : precisionB (.atom (.strEq (chars "<maybeminus>") (chars "-"))) corpus5 =
        mkRat 2 3 := by decide
    rw [← precisionB_eq, e, Rat.mkRat_eq_div]
    norm_num
  · have e : precisionB (.atom (.strEq (chars "<function>") (chars "sqrt"))) corpus5 =
        mkRat 2 3 := by decide
    rw [← precisionB_eq, e, Rat.mkRat_eq_div]
    norm_num
  · rw [← precisionB_eq]
    decide
  · rw [← recallB_eq]
    decide

set_option maxRecDepth 100000 in
/-- Witness for C2 (amended) at a candidate no input of the README corpus
satisfies. -/
theorem c2_witness :
    precisionC (.atom (.strEq (chars "<number>") (chars "x"))) corpus5 = 0 ∧
    (∀ (d : Constraint) (cs : List LabeledInput),
      precisionC d cs =
        ((cs.filter (fun i => (i.label == OracleResult.FAILING) && d.sat i)).length : Rat) /
          ((cs.filter d.sat).length : Rat)) ∧
    precisionC (.atom (.intLe (chars "<number>") (-10))) corpus5 = 2/3 ∧
    precisionC (.atom (.strEq (chars "<maybeminus>") (chars "-"))) corpus5 = 2/3 ∧
    precisionC (.atom (.strEq (chars "<function>") (chars "sqrt"))) corpus5 = 2/3 ∧
    precisionC (mkConj [.atom (.strEq (chars "<function>") (chars "sqrt")),
      .atom (.strEq (chars "<maybeminus>") (chars "-"))]) corpus5 = 1 ∧
    recallC (.atom (.intLe (chars "<number>") (-10))) corpus5 = 1 :=
  c2_precision_formula (.atom (.strEq (chars "<number>") (chars "x"))) corpus5
    (by decide)

set_option maxRecDepth 100000 in
/-- Claim C3: on the notebook's six-input corpus with relevant non-terminals
`<number>`, `<maybeminus>`, `<function>` over the calculator grammar, `mine`
returns among its top candidates the constraint
`int(<number>) <= -10 and str(<function>) == 'sqrt'` with precision 1.0 and
recall 1.0. -/
theorem c3_end_to_end :
    refConstraint ∈ bestCandidates corpus6 relevantNts ∧
      precisionC refConstraint corpus6 = 1 ∧
      recallC refConstraint corpus6 = 1 := by
  refine ⟨by decide, ?_, ?_⟩
  · rw [← precisionB_eq]
    decide
  · rw [← recallB_eq]
    decide

/-- Claim C4: the conjunction of two atomic candidates has, on every corpus
input, truth value equal to the pointwise logical AND of the two members'
truth values, and its precision and recall are the generic metrics of that
combined truth table. -/
theorem c4_conjunction_pointwise (a1 a2 : Atomic) (corpus : List LabeledInput)
    (i : LabeledInput) (_hi : i ∈ corpus) :
    (mkConj [.atom a1, .atom a2]).eval i.tree
        = (evalAtomic a1 i.tree && evalAtomic a2 i.tree) ∧
      precisionC (mkConj [.atom a1, .atom a2]) corpus
        = precisionP (fun j => evalAtomic a1 j.tree && evalAtomic a2 j.tree) corpus ∧
      recallC (mkConj [.atom a1, .atom a2]) corpus
        = recallP (fun j => evalAtomic a1 j.tree && evalAtomic a2 j.tree) corpus := by
  have hpt : ∀ j : LabeledInput,
      (mkConj [.atom a1, .atom a2]).sat j
        = (evalAtomic a1 j.tree && evalAtomic a2 j.tree) := by
    intro j
    unfold Constraint.sat
    simp [mkConj, CList.ofList, Constraint.eval, CList.evalAll]
  refine ⟨hpt i, ?_, ?_⟩
  · exact precisionP_congr _ _ corpus (fun j _ => hpt j)
  · exact recallP_congr _ _ corpus (fun j _ => hpt j)

/-- Witness for C4 at the two literals of the notebook's top candidate on
the six-input corpus. -/
theorem c4_witness :
    (mkConj [.atom (.intLe (chars "<number>") (-10)),
        .atom (.strEq (chars "<function>") (chars "sqrt"))]).eval
        (⟨mkCalc "sqrt" (mkNumber true '9' ['0', '0']),
          OracleResult.FAILING⟩ : LabeledInput).tree
      = (evalAtomic (.intLe (chars "<number>") (-10))
            (⟨mkCalc "sqrt" (mkNumber true '9' ['0', '0']),
              OracleResult.FAILING⟩ : LabeledInput).tree &&
          evalAtomic (.strEq (chars "<function>") (chars "sqrt"))
            (⟨mkCalc "sqrt" (mkNumber true '9' ['0', '0']),
              OracleResult.FAILING⟩ : LabeledInput).tree) ∧
      precisionC (mkConj [.atom (.intLe (chars "<number>") (-10)),
          .atom (.strEq (chars "<function>") (chars "sqrt"))]) corpus6
        = precisionP (fun j => evalAtomic (.intLe (chars "<number>") (-10)) j.tree &&
            evalAtomic (.strEq (chars "<function>") (chars "sqrt")) j.tree) corpus6 ∧
      recallC (mkConj [.atom (.intLe (chars "<number>") (-10)),
          .atom (.strEq (chars "<function>") (chars "sqrt"))]) corpus6
        = recallP (fun j => evalAtomic (.intLe (chars "<number>") (-10)) j.tree &&
            evalAtomic (.strEq (chars "<function>") (chars "sqrt")) j.tree) corpus6 :=
  c4_conjunction_pointwise (.intLe (chars "<number>") (-10))
    (.strEq (chars "<function>") (chars "sqrt")) corpus6
    ⟨mkCalc "sqrt" (mkNumber true '9' ['0', '0']), OracleResult.FAILING⟩
    (by decide)

/-- Claim C5: the negated candidate has, on every corpus input, truth value
equal to the logical NOT of the wrapped candidate's truth value. -/
theorem c5_negation_pointwise (c : Constraint) (corpus : List LabeledInput)
    (i : LabeledInput) (_hi : i ∈ corpus) :
    (Constraint.neg c).eval i.tree = !(c.eval i.tree) := by
  simp [Constraint.eval]

/-- Witness for C5 on the first input of the notebook corpus. -/
theorem c5_witness :
    (Constraint.neg refConstraint).eval
        (mkCalc "sqrt" (mkNumber true '9' ['0', '0'])) =
      !(refConstraint.eval (mkCalc "sqrt" (mkNumber true '9' ['0', '0']))) :=
  c5_negation_pointwise refConstraint corpus6
    ⟨mkCalc "sqrt" (mkNumber true '9' ['0', '0']), .FAILING⟩
    (by decide)

/-- Claim C7: in the CHALLENGE step, for a best candidate with at least one
atomic literal, the constraint handed to the external generator is exactly
the conjunction of the negation of the candidate's first literal with all
remaining literals unchanged. -/
theorem c7_challenge_construction (c l : Constraint) (rest : List Constraint)
    (h : literalsOf c = l :: rest) :
    challengeConstraint c = some (mkConj (Constraint.neg l :: rest)) := by
  unfold challengeConstraint
  rw [h]

/-- Witness for C7 at the notebook's top candidate: the challenge constraint
is `(~(int(<number>) <= -10) and str(<function>) == 'sqrt')`. -/
theorem c7_witness :
    challengeConstraint refConstraint =
      some (mkConj (Constraint.neg (.atom (.intLe (chars "<number>") (-10))) ::
        [.atom (.strEq (chars "<function>") (chars "sqrt"))])) :=
  c7_challenge_construction refConstraint
    (.atom (.intLe (chars "<number>") (-10)))
    [.atom (.strEq (chars "<function>") (chars "sqrt"))] rfl

/-- Claim C8: evaluation is total — a candidate whose bound tag has no
occurrence in the input's tree is false for that input (not an error), and a
numeric comparison meeting non-numeric text at an occurrence is false for
that input (`NotNumeric` never propagates). -/
theorem c8_evaluation_total (nt1 nt2 n3 : Str) (k : Int) (s : Str) (t : DTree)
    (o : DTree) (h1 : DTree.occ nt1 t = []) (h2 : o ∈ DTree.occ nt2 t)
    (h3 : parseIntStr o.text = none) :
    evalAtomic (.intLe nt1 k) t = false ∧
    evalAtomic (.intEq nt1 k) t = false ∧
    evalAtomic (.strEq nt1 s) t = false ∧
    evalAtomic (.existsStrEq nt1 s) t = false ∧
    evalAtomic (.existsSubstr nt1 s) t = false ∧
    evalAtomic (.lenRel nt1 n3) t = false ∧
    evalAtomic (.lenRel n3 nt1) t = false ∧
    evalAtomic (.intLe nt2 k) t = false ∧
    evalAtomic (.intEq nt2 k) t = false := by
  have hallLe : (DTree.occ nt2 t).all (fun o2 =>
      match parseIntStr o2.text with
      | some v => decide (v ≤ k)
      | none => false) = false := by
    rw [List.all_eq_false]
    exact ⟨o, h2, by rw [h3]; exact Bool.false_ne_true⟩
  have hallEq : (DTree.occ nt2 t).all (fun o2 =>
      match parseIntStr o2.text with
      | some v => v == k
      | none => false) = false := by
    rw [List.all_eq_false]
    exact ⟨o, h2, by rw [h3]; exact Bool.false_ne_true⟩
  refine ⟨?_, ?_, ?_, ?_, ?_, ?_, ?_, ?_, ?_⟩ <;>
    simp [evalAtomic, h1, hallLe, hallEq]

/-- Witness for C8: `<z>` does not occur in the sample tree, the `<q>` node
occurrence has the non-numeric text `ab`. -/
theorem c8_witness :
    evalAtomic (.intLe (chars "<z>") 0) wTree = false ∧
    evalAtomic (.intEq (chars "<z>") 0) wTree = false ∧
    evalAtomic (.strEq (chars "<z>") (chars "ab")) wTree = false ∧
    evalAtomic (.existsStrEq (chars "<z>") (chars "ab")) wTree = false ∧
    evalAtomic (.existsSubstr (chars "<z>") (chars "ab")) wTree = false ∧
    evalAtomic (.lenRel (chars "<z>") (chars "<q>")) wTree = false ∧
    evalAtomic (.lenRel (chars "<q>") (chars "<z>")) wTree = false ∧
    evalAtomic (.intLe (chars "<q>") 0) wTree = false ∧
    evalAtomic (.intEq (chars "<q>") 0) wTree = false :=
  c8_evaluation_total (chars "<z>") (chars "<q>") (chars "<q>") 0 (chars "ab")
    wTree wTree (by decide) (by decide) (by decide)

/-- Claim C9: the refinement entry point takes the initial corpus as raw
input texts plus an oracle (no caller-supplied labels in its interface) and
labels every initial input by invoking the oracle on its text. -/
theorem c9_oracle_labeling (parse : Str → Option DTree)
    (oracle : Str → OracleResult) (texts : List Str) (s : Str) (t : DTree)
    (hs : s ∈ texts) (hp : parse s = some t) :
    (⟨t, oracle s⟩ : LabeledInput) ∈ initialCorpus parse oracle texts ∧
      ∀ i ∈ initialCorpus parse oracle texts,
        ∃ u ∈ texts, parse u = some i.tree ∧ i.label = oracle u := by
  constructor
  · unfold initialCorpus
    rw [List.mem_filterMap]
    exact ⟨s, hs, by rw [hp]; rfl⟩
  · intro i hi
    unfold initialCorpus at hi
    rw [List.mem_filterMap] at hi
    obtain ⟨u, hu, hfu⟩ := hi
    rw [Option.map_eq_some'] at hfu
    obtain ⟨tr, hparse, hmk⟩ := hfu
    refine ⟨u, hu, ?_, ?_⟩
    · rw [← hmk]
      exact hparse
    · rw [← hmk]

/-- Witness for C9 with a one-text corpus, a leaf parser and a constant
oracle. -/
theorem c9_witness :
    ((⟨.leaf (chars "a"), OracleResult.FAILING⟩ : LabeledInput) ∈
      initialCorpus (fun u => some (.leaf u)) (fun _ => OracleResult.FAILING)
        [chars "a"]) ∧
      ∀ i ∈ initialCorpus (fun u => some (.leaf u))
          (fun _ => OracleResult.FAILING) [chars "a"],
        ∃ u ∈ [chars "a"],
          (fun u => some (DTree.leaf u)) u = some i.tree ∧
            i.label = (fun _ => OracleResult.FAILING) u :=
  c9_oracle_labeling (fun u => some (.leaf u)) (fun _ => OracleResult.FAILING)
    [chars "a"] (chars "a") (.leaf (chars "a"))
    (List.mem_singleton.mpr rfl) rfl

set_option maxRecDepth 100000 in
/-- Claim C10: the best-candidate set may contain several syntactically
distinct constraints with identical truth tables on the corpus; `mine`
performs no semantic deduplication across reported candidates. -/
theorem c10_no_semantic_dedup :
    refConstraint ≠ refConstraint2 ∧
      refConstraint ∈ bestCandidates corpus6 relevantNts ∧
      refConstraint2 ∈ bestCandidates corpus6 relevantNts ∧
      corpus6.map (fun i => refConstraint.eval i.tree) =
        corpus6.map (fun i => refConstraint2.eval i.tree) := by
  refine ⟨by decide, by decide, by decide, by decide⟩

/-- Claim C6: the ranked list returned by `mine` is ordered by the total
order over metrics encoded in `rankKey` — candidates with precision 1.0 and
recall 1.0 first, ordered by ascending literal count, then by descending
precision·recall product, then by descending support — and the
best-candidate set returned by default is exactly the set of candidates tied
at the best rank. -/
theorem c6_ranking_policy (corpus : List LabeledInput) (nts : List Str)
    (c : Constraint) (hc : c ∈ mine corpus nts) :
    List.Sorted (fun c1 c2 => KeyLE (rankKey corpus c1) (rankKey corpus c2))
      (mine corpus nts) ∧
    (c ∈ bestCandidates corpus nts ↔
      ∀ d ∈ mine corpus nts, KeyLE (rankKey corpus c) (rankKey corpus d)) ∧
    (perfectB c corpus = true ↔
      (precisionC c corpus = 1 ∧ recallC c corpus = 1)) := by
  haveI htot : IsTotal Constraint (mineLE corpus) :=
    ⟨fun a b => keyLE_total (rankKeyB corpus a) (rankKeyB corpus b)⟩
  haveI htrans : IsTrans Constraint (mineLE corpus) :=
    ⟨fun a b d h1 h2 => keyLE_trans _ _ _ h1 h2⟩
  have hsorted : List.Sorted (mineLE corpus) (mine corpus nts) := by
    unfold mine
    exact List.sorted_insertionSort _ _
  have hrel : (fun c1 c2 => KeyLE (rankKey corpus c1) (rankKey corpus c2))
      = mineLE corpus := by
    funext a b
    unfold mineLE
    rw [rankKeyB_eq, rankKeyB_eq]
  refine ⟨by rw [hrel]; exact hsorted, ?_, perfectB_iff c corpus⟩
  cases hm : mine corpus nts with
  | nil =>
    rw [hm] at hc
    cases hc
  | cons c0 rest =>
    have hsorted2 : List.Sorted (mineLE corpus) (c0 :: rest) := by
      rw [hm] at hsorted
      exact hsorted
    have hhead : ∀ d ∈ c0 :: rest, mineLE corpus c0 d := by
      intro d hd
      rcases List.mem_cons.mp hd with rfl | hd2
      · exact keyLE_refl _
      · exact List.rel_of_sorted_cons hsorted2 d hd2
    constructor
    · intro hb
      have hbf : c ∈ (c0 :: rest).filter
          (fun d => decide (rankKeyB corpus d = rankKeyB corpus c0)) := by
        unfold bestCandidates at hb
        rw [hm] at hb
        exact hb
      have hkey : rankKeyB corpus c = rankKeyB corpus c0 :=
        of_decide_eq_true (List.mem_filter.mp hbf).2
      intro d hd
      rw [← rankKeyB_eq, ← rankKeyB_eq, hkey]
      exact hhead d hd
    · intro hmin
      have h2 : KeyLE (rankKeyB corpus c) (rankKeyB corpus c0) := by
        have h3 := hmin c0 (List.mem_cons_self c0 rest)
        rw [← rankKeyB_eq, ← rankKeyB_eq] at h3
        exact h3
      have hkey : rankKeyB corpus c = rankKeyB corpus c0 :=
        keyLE_antisymm _ _ h2 (hhead c (hm ▸ hc))
      unfold bestCandidates
      rw [hm]
      refine List.mem_filter.mpr ⟨hm ▸ hc, decide_eq_true hkey⟩

set_option maxRecDepth 100000 in
/-- Witness for C6 at the six-input corpus with the retained atomic
candidate `str(<function>) == 'sqrt'`. -/
theorem c6_witness :
    List.Sorted (fun c1 c2 => KeyLE (rankKey corpus6 c1) (rankKey corpus6 c2))
      (mine corpus6 relevantNts) ∧
    ((.atom (.strEq (chars "<function>") (chars "sqrt")) : Constraint) ∈
        bestCandidates corpus6 relevantNts ↔
      ∀ d ∈ mine corpus6 relevantNts,
        KeyLE (rankKey corpus6 (.atom (.strEq (chars "<function>") (chars "sqrt"))))
          (rankKey corpus6 d)) ∧
    (perfectB (.atom (.strEq (chars "<function>") (chars "sqrt"))) corpus6 = true ↔
      (precisionC (.atom (.strEq (chars "<function>") (chars "sqrt"))) corpus6 = 1 ∧
        recallC (.atom (.strEq (chars "<function>") (chars "sqrt"))) corpus6 = 1)) :=
  c6_ranking_policy corpus6 relevantNts
    (.atom (.strEq (chars "<function>") (chars "sqrt"))) (by decide)

end FdLearn
